import Mathlib

/-!
Verification of the structured-content extraction and provider-error
classification layer of the repository (source: `src/notte/llms/engine.py`).

Strings are modelled as `List Char` (Python `str`).  The three regular
expressions used by the source are interpreted as the literal-tag searches
they perform on the alphanumeric tags used throughout the repository:

* `re.search(f"<{tag}>(.*?)</{tag}>", s, re.DOTALL)` — leftmost occurrence of
  the opening tag that is followed by the closing tag, with the non-greedy
  group ending at the first closing tag (`searchSpan`);
* `re.search(r"<[^>]*>", s)` — some `<` followed by a later `>` (`hasTagLike`);
* `re.search(r"Current length is (\d+) while limit is (\d+)", s)` — leftmost
  position where the literal text, a maximal non-empty digit run, the second
  literal and a second maximal digit run match (`parseContextSizes`).

Python `str.strip()` is modelled on the ASCII whitespace characters
(`pyStrip`), `str.split(sep)` on a non-empty separator by `pySplit`,
the `in` operator by `containsSub`, and `int()` on a digit run by
`digitsToNat`.  Error messages carried by the Python exceptions are elided:
only the error class and its structured fields are modelled.
-/

/-- ASCII whitespace recognised by Python `str.strip()`. -/
def isPySpace (c : Char) : Bool :=
  c = ' ' || c = '\t' || c = '\n' || c = '\r' || c = '\x0b' || c = '\x0c'

/-- Model of Python `str.strip()`: remove leading and trailing whitespace. -/
def pyStrip (s : List Char) : List Char :=
  ((s.dropWhile isPySpace).reverse.dropWhile isPySpace).reverse

/-- Split at the first occurrence of `sep`: `some (before, after)` when `sep`
occurs as a contiguous sublist, `none` otherwise.  Helper for `pySplit` and
for the `in` operator. -/
def splitFirst (sep : List Char) : List Char → Option (List Char × List Char)
  | [] => none
  | c :: rest =>
    if sep.isPrefixOf (c :: rest) then some ([], (c :: rest).drop sep.length)
    else
      match splitFirst sep rest with
      | none => none
      | some (a, b) => some (c :: a, b)

/-- Fuel-indexed worker for `pySplit`; the fuel is only a termination bound. -/
def pySplitFuel (sep : List Char) : Nat → List Char → List (List Char)
  | 0, s => [s]
  | fuel + 1, s =>
    match splitFirst sep s with
    | none => [s]
    | some (a, b) => a :: pySplitFuel sep fuel b

/-- Model of Python `str.split(sep)` for a non-empty separator. -/
def pySplit (sep s : List Char) : List (List Char) :=
  pySplitFuel sep s.length s

/-- Model of the Python `in` operator on strings (contiguous substring). -/
def containsSub (pat s : List Char) : Bool :=
  (splitFirst pat s).isSome

/-- Model of `re.search(f"<{tag}>(.*?)</{tag}>", s, re.DOTALL)` and of
`re.search(f"```{tag}(.*?)```", s, re.DOTALL)`: scan for the leftmost
position where `opn` matches and `cls` occurs later; the captured group runs
to the first following occurrence of `cls`. -/
def searchSpan (opn cls : List Char) : List Char → Option (List Char)
  | [] => none
  | c :: rest =>
    if opn.isPrefixOf (c :: rest) then
      match splitFirst cls ((c :: rest).drop opn.length) with
      | some (y, _) => some y
      | none => searchSpan opn cls rest
    else searchSpan opn cls rest

/-- Model of `re.search(r"<[^>]*>", s)` viewed as a Boolean: true iff some
`<` is followed (at some later position) by a `>`. -/
def hasTagLike : List Char → Bool
  | [] => false
  | c :: rest => (c = '<' && rest.contains '>') || hasTagLike rest

/-- The opening form `f"<{tag}>"`. -/
def openTag (tag : List Char) : List Char :=
  '<' :: tag ++ ['>']

/-- The closing form `f"</{tag}>"`. -/
def closeTag (tag : List Char) : List Char :=
  '<' :: '/' :: tag ++ ['>']

/-- The fenced-block opening form `f"```{tag}"`. -/
def fenceTag (tag : List Char) : List Char :=
  "```".toList ++ tag

/-- Extraction configuration, from the `StructuredContent` dataclass. -/
structure StructuredContent where
  outer_tag : Option (List Char) := none
  inner_tag : Option (List Char) := none
  next_outer_tag : Option (List Char) := none
  fail_if_final_tag : Bool := true
  fail_if_inner_tag : Bool := true
  fail_if_next_outer_tag : Bool := true
  deriving DecidableEq

/-- The error taxonomy raised by the engine (`notte.errors`).  Messages are
elided; only the class and its structured fields are kept. -/
inductive NotteError where
  | rateLimit (provider : List Char)
  | invalidAPIKey (provider : List Char)
  | contextWindowExceeded (provider : List Char) (currentSize maxSize : Option Nat)
  | modelDoesNotSupportImage (model : List Char)
  | insufficientCredits
  | llmProviderError (shouldRetryLater : Bool)
  | parsingError
  deriving DecidableEq

/-- Model of `StructuredContent.extract`.  Python truthiness of the tag
strings is preserved: an empty configured tag behaves like an absent one. -/
def extract (sc : StructuredContent) (text : List Char) : Except NotteError (List Char) :=
  let outerStage : Except NotteError (List Char) :=
    match sc.outer_tag with
    | none => .ok text
    | some tag =>
      if tag = [] then .ok text
      else
        match searchSpan (openTag tag) (closeTag tag) text with
        | some g => .ok (pyStrip g)
        | none =>
          let splits := pySplit (openTag tag) text
          if sc.fail_if_final_tag ∨ splits.length = 1 then
            .error .parsingError
          else
            let possible0 := splits.getD 1 []
            let finishFallback : List Char → Except NotteError (List Char) := fun pm =>
              if hasTagLike pm then .error .parsingError else .ok pm
            match sc.next_outer_tag with
            | some nt =>
              if !sc.fail_if_next_outer_tag && containsSub (openTag nt) possible0 then
                let splits2 := pySplit (openTag nt) possible0
                if splits2.length = 1 then .error .parsingError
                else finishFallback (pyStrip (splits2.getD 0 []))
              else finishFallback possible0
            | none => finishFallback possible0
  match outerStage with
  | .error e => .error e
  | .ok content =>
    match sc.inner_tag with
    | none => .ok content
    | some itag =>
      if itag = [] then .ok content
      else
        match searchSpan (fenceTag itag) ("```".toList) content with
        | some g => .ok (pyStrip g)
        | none =>
          if sc.fail_if_inner_tag then .error .parsingError
          else .ok content

example : extract { outer_tag := some ("r".toList) } ("prefix <r>hello</r> suffix".toList)
    = .ok ("hello".toList) := by rfl

example : extract { inner_tag := some ("json".toList) }
    ("```json\n \x7b\x7d \n```".toList) = .ok ("\x7b\x7d".toList) := by rfl

example : extract { outer_tag := some ("r".toList) } ("hello".toList)
    = .error .parsingError := by rfl

example : extract { outer_tag := some ("r".toList), fail_if_final_tag := false }
    ("a <r> b".toList) = .ok (" b".toList) := by rfl

example : extract
    { outer_tag := some ("r".toList), next_outer_tag := some ("s".toList),
      fail_if_final_tag := false, fail_if_next_outer_tag := false }
    ("a <r> b <s> c".toList) = .ok ("b".toList) := by rfl

/-- Provider-client outcome of the single network call made by
`LLMEngine.completion`: either a response (reduced to the first choice's
message content, the only part the core consumes) or one of the
provider-client exception classes, each carrying its message text. -/
inductive ProviderOutcome where
  | success (content : List Char)
  | rateLimitError
  | authenticationError
  | contextWindowExceededError (msg : List Char)
  | badRequestError (msg : List Char)
  | apiError (msg : List Char)
  | otherException (msg : List Char)

/-- Python `model or self.model`: `None` and the empty string are falsy. -/
def pyOr (o : Option (List Char)) (d : List Char) : List Char :=
  match o with
  | some m => if m = [] then d else m
  | none => d

/-- Model of `int()` applied to a decimal digit run. -/
def digitsToNat (ds : List Char) : Nat :=
  ds.foldl (fun n c => n * 10 + (c.toNat - 48)) 0

/-- The literal part of the pattern before the first captured group. -/
def litCur : List Char := "Current length is ".toList

/-- The literal part of the pattern between the two captured groups. -/
def litLim : List Char := " while limit is ".toList

/-- Match `Current length is (\d+) while limit is (\d+)` anchored at the head
of `s`, returning the two captured numbers. -/
def matchSizesAt (s : List Char) : Option (Nat × Nat) :=
  if litCur.isPrefixOf s then
    let r1 := s.drop litCur.length
    let d1 := r1.takeWhile Char.isDigit
    if d1 = [] then none
    else
      let r2 := r1.dropWhile Char.isDigit
      if litLim.isPrefixOf r2 then
        let r3 := r2.drop litLim.length
        let d2 := r3.takeWhile Char.isDigit
        if d2 = [] then none
        else some (digitsToNat d1, digitsToNat d2)
      else none
  else none

/-- Model of `re.search(r"Current length is (\d+) while limit is (\d+)", s)`
followed by `int()` on both groups: try every start position from the left. -/
def parseContextSizes : List Char → Option (Nat × Nat)
  | [] => none
  | c :: rest =>
    match matchSizesAt (c :: rest) with
    | some r => some r
    | none => parseContextSizes rest

/-- Model of `LLMEngine.completion`: one provider call, every provider-client
exception classified into the `NotteError` taxonomy. -/
def completion (engineModel : List Char) (modelArg : Option (List Char))
    (outcome : ProviderOutcome) : Except NotteError (List Char) :=
  let model := pyOr modelArg engineModel
  match outcome with
  | .success content => .ok content
  | .rateLimitError => .error (.rateLimit model)
  | .authenticationError => .error (.invalidAPIKey model)
  | .contextWindowExceededError msg =>
    match parseContextSizes msg with
    | some (n, m) => .error (.contextWindowExceeded model (some n) (some m))
    | none => .error (.contextWindowExceeded model none none)
  | .badRequestError msg =>
    if containsSub ("Input should be a valid string".toList) msg then
      .error (.modelDoesNotSupportImage model)
    else .error (.llmProviderError false)
  | .apiError _ => .error (.llmProviderError true)
  | .otherException msg =>
    if containsSub ("credit balance is too low".toList) msg then
      .error .insufficientCredits
    else .error (.llmProviderError true)

/-- Model of `LLMEngine.single_completion`: resolve the model, call
`completion`, return the first choice's content verbatim. -/
def single_completion (engineModel : List Char) (modelArg : Option (List Char))
    (outcome : ProviderOutcome) : Except NotteError (List Char) :=
  completion engineModel (some (pyOr modelArg engineModel)) outcome

/-- The extractor configured in `LLMEngine.__init__`:
`StructuredContent(inner_tag="json", fail_if_inner_tag=False)`. -/
def scJson : StructuredContent :=
  { inner_tag := some ("json".toList), fail_if_inner_tag := false }

/-- Model of Python `str.endswith`. -/
def pyEndsWith (pat s : List Char) : Bool :=
  pat.reverse.isPrefixOf s.reverse

/-- Model of `LLMEngine.structured_completion`.  The pydantic schema
validation `response_format.model_validate_json` is abstracted as a function
`validate` returning `none` exactly when it would raise `ValidationError`. -/
def structured_completion {σ : Type} (validate : List Char → Option σ)
    (engineModel : List Char) (modelArg : Option (List Char))
    (outcome : ProviderOutcome) : Except NotteError σ :=
  match single_completion engineModel modelArg outcome with
  | .error e => .error e
  | .ok raw =>
    let content0 := pyStrip raw
    match extract scJson content0 with
    | .error e => .error e
    | .ok c1 =>
      let content1 := pyStrip c1
      let contentF : Except NotteError (List Char) :=
        if containsSub ("```json".toList) content1 then
          match extract scJson content1 with
          | .error e => .error e
          | .ok c2 => .ok (pyStrip c2)
        else if ¬(['\x7b'].isPrefixOf content1 = true) ∨ ¬(pyEndsWith ['\x7d'] content1 = true) then
          .error .parsingError
        else .ok content1
      match contentF with
      | .error e => .error e
      | .ok content =>
        match validate content with
        | some v => .ok v
        | none => .error .parsingError

example : parseContextSizes ("Current length is 5000 while limit is 4096".toList)
    = some (5000, 4096) := by rfl

example : parseContextSizes ("no pattern here".toList) = none := by rfl

example : parseContextSizes ("x Current length is bad, Current length is 12 while limit is 9 y".toList)
    = some (12, 9) := by rfl

example : completion ("m".toList) none .rateLimitError = .error (.rateLimit ("m".toList)) := by rfl

example : structured_completion (fun s => if s = "\x7b\x7d".toList then some 1 else none)
    ("m".toList) none (.success ("  ```json\n\x7b\x7d\n```  ".toList)) = .ok 1 := by rfl

section SearchLemmas

/-- A prefix of a dropped tail is an infix of the whole list. -/
theorem IsInfix_of_prefix_drop {l s : List Char} {i : Nat} (h : l <+: s.drop i) :
    l <:+: s := by
  obtain ⟨t, ht⟩ := h
  exact ⟨s.take i, t, by rw [List.append_assoc, ht, List.take_append_drop]⟩

/-- Soundness of `splitFirst`: a successful split is a decomposition at the
first occurrence of the separator. -/
theorem splitFirst_eq_some (sep : List Char) :
    ∀ (s a b : List Char), splitFirst sep s = some (a, b) →
      s = a ++ sep ++ b ∧ ∀ i, i < a.length → ¬ sep <+: s.drop i := by
  intro s
  induction s with
  | nil => intro a b h; simp [splitFirst] at h
  | cons c rest ih =>
    intro a b h
    rw [splitFirst] at h
    by_cases hp : sep.isPrefixOf (c :: rest)
    · rw [if_pos hp] at h
      obtain ⟨ha, hb⟩ := Prod.mk.injEq .. ▸ Option.some.inj h
      obtain ⟨t, ht⟩ := List.isPrefixOf_iff_prefix.mp hp
      subst ha hb
      constructor
      · rw [← ht, List.drop_left]; rfl
      · intro i hi; simp at hi
    · rw [if_neg hp] at h
      cases hsf : splitFirst sep rest with
      | none => rw [hsf] at h; simp at h
      | some ab =>
        obtain ⟨a1, b1⟩ := ab
        rw [hsf] at h
        obtain ⟨ha, hb⟩ := Prod.mk.injEq .. ▸ Option.some.inj h
        obtain ⟨hrest, hfirst⟩ := ih a1 b1 hsf
        subst ha hb
        constructor
        · simpa using hrest
        · intro i hi
          match i with
          | 0 =>
            intro hpre
            exact hp (List.isPrefixOf_iff_prefix.mpr hpre)
          | j + 1 =>
            simp only [List.drop_succ_cons]
            exact hfirst j (by simpa using hi)

/-- Completeness of `splitFirst`: the decomposition at the first occurrence
of the separator is what `splitFirst` returns. -/
theorem splitFirst_eq_some_of_first (sep : List Char) (hsep : sep ≠ []) :
    ∀ (a b s : List Char), s = a ++ sep ++ b →
      (∀ i, i < a.length → ¬ sep <+: s.drop i) →
      splitFirst sep s = some (a, b) := by
  intro a
  induction a with
  | nil =>
    intro b s hs _
    obtain ⟨c, sep1, hc⟩ : ∃ c sep1, sep = c :: sep1 := by
      cases sep with
      | nil => exact absurd rfl hsep
      | cons c sep1 => exact ⟨c, sep1, rfl⟩
    have hs3 : s = c :: (sep1 ++ b) := by simp [hs, hc]
    have hp : sep.isPrefixOf (c :: (sep1 ++ b)) = true := by
      apply List.isPrefixOf_iff_prefix.mpr
      have h4 : c :: (sep1 ++ b) = sep ++ b := by simp [hc]
      rw [h4]
      exact List.prefix_append sep b
    rw [hs3, splitFirst, if_pos hp]
    have hdrop : (c :: (sep1 ++ b)).drop sep.length = b := by
      have h4 : c :: (sep1 ++ b) = sep ++ b := by simp [hc]
      rw [h4, List.drop_left]
    rw [hdrop]
  | cons x a1 ih =>
    intro b s hs hfirst
    have hs2 : s = x :: (a1 ++ sep ++ b) := by simp [hs]
    have hnp : ¬ sep.isPrefixOf (x :: (a1 ++ sep ++ b)) := by
      intro hp
      have := hfirst 0 (by simp)
      rw [List.drop_zero, hs2] at this
      exact this (List.isPrefixOf_iff_prefix.mp hp)
    have hrec : splitFirst sep (a1 ++ sep ++ b) = some (a1, b) :=
      ih b (a1 ++ sep ++ b) rfl (fun i hi => by
        have := hfirst (i + 1) (by simpa using Nat.succ_lt_succ hi)
        rw [hs2] at this
        simpa using this)
    rw [hs2, splitFirst, if_neg hnp, hrec]

/-- If the separator does not occur, `splitFirst` fails. -/
theorem splitFirst_eq_none_of_not_occurs (sep s : List Char) (h : ¬ sep <:+: s) :
    splitFirst sep s = none := by
  cases hsf : splitFirst sep s with
  | none => rfl
  | some ab =>
    obtain ⟨hdec, _⟩ := splitFirst_eq_some sep s ab.1 ab.2 (by rw [hsf])
    exact absurd ⟨ab.1, ab.2, by rw [hdec]⟩ h

/-- If the non-empty separator occurs, `splitFirst` succeeds. -/
theorem splitFirst_isSome_of_occurs (sep : List Char) (hsep : sep ≠ []) :
    ∀ s : List Char, sep <:+: s → (splitFirst sep s).isSome := by
  intro s
  induction s with
  | nil =>
    intro h
    exact absurd (List.infix_nil.mp h) hsep
  | cons c rest ih =>
    intro h
    rw [splitFirst]
    by_cases hp : sep.isPrefixOf (c :: rest)
    · rw [if_pos hp]; rfl
    · rw [if_neg hp]
      rcases List.infix_cons_iff.mp h with hpre | hinf
      · exact absurd (List.isPrefixOf_iff_prefix.mpr hpre) hp
      · have hrec := ih hinf
        cases hsf : splitFirst sep rest with
        | none => rw [hsf] at hrec; simp at hrec
        | some ab => rfl

/-- `containsSub` agrees with list-infix occurrence (non-empty pattern). -/
theorem containsSub_iff_occurs (pat s : List Char) (hpat : pat ≠ []) :
    containsSub pat s = true ↔ pat <:+: s := by
  constructor
  · intro h
    rw [containsSub, Option.isSome_iff_exists] at h
    obtain ⟨ab, hab⟩ := h
    obtain ⟨hdec, _⟩ := splitFirst_eq_some pat s ab.1 ab.2 (by rw [hab])
    exact ⟨ab.1, ab.2, by rw [hdec]⟩
  · intro h
    exact splitFirst_isSome_of_occurs pat hpat s h

end SearchLemmas

section SpanLemmas

/-- In any decomposition `s = a ++ opn ++ y ++ cls ++ b`, the closing tag
occurs within `s.drop opn.length`. -/
theorem occurs_drop_of_decomp (opn cls : List Char) {s a y b : List Char}
    (hdec : s = a ++ opn ++ y ++ cls ++ b) :
    cls <:+: s.drop opn.length := by
  have h1 : s = (a ++ opn ++ y) ++ (cls ++ b) := by rw [hdec]; simp
  have h2 : s.drop (a ++ opn ++ y).length = cls ++ b := by rw [h1, List.drop_left]
  have hlen : opn.length ≤ (a ++ opn ++ y).length := by
    simp only [List.length_append]
    omega
  apply IsInfix_of_prefix_drop (i := (a ++ opn ++ y).length - opn.length)
  rw [List.drop_drop, Nat.add_sub_cancel' hlen, h2]
  exact List.prefix_append cls b

/-- Soundness of `searchSpan`: a successful search yields the decomposition
at the leftmost viable opening tag, with the group ending at the first
following closing tag. -/
theorem searchSpan_eq_some (opn cls : List Char) (hcls : cls ≠ []) :
    ∀ (s y : List Char), searchSpan opn cls s = some y →
      ∃ a b, s = a ++ opn ++ y ++ cls ++ b
        ∧ (∀ i, i < a.length → ¬ opn <+: s.drop i)
        ∧ (∀ i, i < y.length → ¬ cls <+: (y ++ cls ++ b).drop i) := by
  intro s
  induction s with
  | nil => intro y h; simp [searchSpan] at h
  | cons c rest ih =>
    intro y h
    rw [searchSpan] at h
    by_cases hp : opn.isPrefixOf (c :: rest)
    · rw [if_pos hp] at h
      cases hsf : splitFirst cls ((c :: rest).drop opn.length) with
      | some yb =>
        obtain ⟨y1, b1⟩ := yb
        rw [hsf] at h
        have hy : y1 = y := Option.some.inj h
        subst hy
        obtain ⟨hdrop, hfirst⟩ :=
          splitFirst_eq_some cls ((c :: rest).drop opn.length) y1 b1 hsf
        obtain ⟨t, ht⟩ := List.isPrefixOf_iff_prefix.mp hp
        have ht2 : (c :: rest).drop opn.length = t := by rw [← ht, List.drop_left]
        refine ⟨[], b1, ?_, ?_, ?_⟩
        · rw [← ht, ht2.symm.trans hdrop]
          simp
        · intro i hi; simp at hi
        · intro i hi
          have := hfirst i hi
          rw [hdrop] at this
          exact this
      | none =>
        rw [hsf] at h
        obtain ⟨a1, b1, hdec, _, _⟩ := ih y h
        exfalso
        have hdec2 : c :: rest = (c :: a1) ++ opn ++ y ++ cls ++ b1 := by
          rw [hdec]; simp
        have hocc := occurs_drop_of_decomp opn cls hdec2
        have := splitFirst_isSome_of_occurs cls hcls _ hocc
        rw [hsf] at this
        simp at this
    · rw [if_neg hp] at h
      obtain ⟨a1, b1, hdec, hopen, hclose⟩ := ih y h
      refine ⟨c :: a1, b1, by rw [hdec]; simp, ?_, hclose⟩
      intro i hi
      match i with
      | 0 =>
        intro hpre
        exact hp (List.isPrefixOf_iff_prefix.mpr hpre)
      | j + 1 =>
        simp only [List.drop_succ_cons]
        exact hopen j (by simpa using hi)

/-- Completeness of `searchSpan`: if a well-formed span occurs anywhere in
`s`, the search succeeds. -/
theorem searchSpan_isSome (opn cls : List Char) (hopn : opn ≠ []) (hcls : cls ≠ []) :
    ∀ s : List Char, (∃ a y b, s = a ++ opn ++ y ++ cls ++ b) →
      (searchSpan opn cls s).isSome := by
  intro s
  induction s with
  | nil =>
    rintro ⟨a, y, b, hdec⟩
    have hlen : ([] : List Char).length = (a ++ opn ++ y ++ cls ++ b).length := by
      rw [hdec]
    simp only [List.length_nil, List.length_append] at hlen
    have := List.length_pos.mpr hopn
    omega
  | cons c rest ih =>
    rintro ⟨a, y, b, hdec⟩
    rw [searchSpan]
    by_cases hp : opn.isPrefixOf (c :: rest)
    · rw [if_pos hp]
      have hocc := occurs_drop_of_decomp opn cls hdec
      have hsome := splitFirst_isSome_of_occurs cls hcls _ hocc
      cases hsf : splitFirst cls ((c :: rest).drop opn.length) with
      | none => rw [hsf] at hsome; simp at hsome
      | some yb => obtain ⟨y1, b1⟩ := yb; rfl
    · rw [if_neg hp]
      cases a with
      | nil =>
        exfalso
        apply hp
        apply List.isPrefixOf_iff_prefix.mpr
        exact ⟨y ++ cls ++ b, by rw [hdec]; simp⟩
      | cons a0 a1 =>
        have hc : c :: rest = a0 :: (a1 ++ opn ++ y ++ cls ++ b) := by
          rw [hdec]; simp
        obtain ⟨-, hrest⟩ := List.cons.injEq .. ▸ hc
        exact ih ⟨a1, y, b, hrest⟩

/-- If the opening tag does not occur at all, the span search fails. -/
theorem searchSpan_eq_none_of_not_occurs (opn cls s : List Char) (hcls : cls ≠ [])
    (h : ¬ opn <:+: s) : searchSpan opn cls s = none := by
  cases hs : searchSpan opn cls s with
  | none => rfl
  | some y =>
    obtain ⟨a, b, hdec, -, -⟩ := searchSpan_eq_some opn cls hcls s y hs
    exact absurd ⟨a, y ++ cls ++ b, by rw [hdec]; simp⟩ h

/-- If no well-formed span occurs, the span search fails. -/
theorem searchSpan_eq_none_of_no_span (opn cls s : List Char) (hcls : cls ≠ [])
    (h : ¬ ∃ a y b, s = a ++ opn ++ y ++ cls ++ b) : searchSpan opn cls s = none := by
  cases hs : searchSpan opn cls s with
  | none => rfl
  | some y =>
    obtain ⟨a, b, hdec, -, -⟩ := searchSpan_eq_some opn cls hcls s y hs
    exact absurd ⟨a, y, b, hdec⟩ h

end SpanLemmas

section SplitLemmas

/-- A successful split on a non-empty separator strictly shrinks the tail. -/
theorem splitFirst_length_lt (sep : List Char) (hsep : sep ≠ []) (s a b : List Char)
    (h : splitFirst sep s = some (a, b)) : b.length < s.length := by
  obtain ⟨hdec, -⟩ := splitFirst_eq_some sep s a b h
  have := List.length_pos.mpr hsep
  rw [hdec]
  simp only [List.length_append]
  omega

/-- The fuel of `pySplitFuel` is irrelevant above the list length. -/
theorem pySplitFuel_fuel_irrel (sep : List Char) (hsep : sep ≠ []) :
    ∀ fuel1, ∀ fuel2, ∀ s : List Char, s.length ≤ fuel1 → s.length ≤ fuel2 →
      pySplitFuel sep fuel1 s = pySplitFuel sep fuel2 s := by
  intro fuel1
  induction fuel1 with
  | zero =>
    intro fuel2 s h1 _
    have hs : s = [] := List.length_eq_zero.mp (Nat.le_zero.mp h1)
    subst hs
    cases fuel2 with
    | zero => rfl
    | succ f2 => simp [pySplitFuel, splitFirst]
  | succ f1 ih =>
    intro fuel2 s h1 h2
    cases fuel2 with
    | zero =>
      have hs : s = [] := List.length_eq_zero.mp (Nat.le_zero.mp h2)
      subst hs
      simp [pySplitFuel, splitFirst]
    | succ f2 =>
      rw [pySplitFuel, pySplitFuel]
      cases hsf : splitFirst sep s with
      | none => rfl
      | some ab =>
        obtain ⟨a, b⟩ := ab
        have hlt := splitFirst_length_lt sep hsep s a b hsf
        show a :: pySplitFuel sep f1 b = a :: pySplitFuel sep f2 b
        rw [ih f2 b (by omega) (by omega)]

/-- Unfolding equation for `pySplit`. -/
theorem pySplit_eq (sep : List Char) (hsep : sep ≠ []) (s : List Char) :
    pySplit sep s =
      match splitFirst sep s with
      | none => [s]
      | some (a, b) => a :: pySplit sep b := by
  cases hsf : splitFirst sep s with
  | none =>
    cases s with
    | nil => rfl
    | cons c rest =>
      rw [pySplit]
      simp only [List.length_cons]
      rw [pySplitFuel, hsf]
  | some ab =>
    obtain ⟨a, b⟩ := ab
    have hlt := splitFirst_length_lt sep hsep s a b hsf
    cases s with
    | nil => simp [splitFirst] at hsf
    | cons c rest =>
      rw [pySplit]
      simp only [List.length_cons]
      rw [pySplitFuel, hsf]
      show a :: pySplitFuel sep rest.length b = a :: pySplit sep b
      rw [pySplitFuel_fuel_irrel sep hsep rest.length b.length b
        (by simp only [List.length_cons] at hlt; omega) (by omega)]
      rfl

/-- `pySplit` on an absent separator returns the singleton list. -/
theorem pySplit_of_none (sep s : List Char) (h : splitFirst sep s = none) :
    pySplit sep s = [s] := by
  cases s with
  | nil => rfl
  | cons c rest =>
    rw [pySplit]
    simp only [List.length_cons]
    rw [pySplitFuel, h]

/-- `pySplit` peels the first separator occurrence. -/
theorem pySplit_of_some (sep : List Char) (hsep : sep ≠ []) (s a b : List Char)
    (h : splitFirst sep s = some (a, b)) :
    pySplit sep s = a :: pySplit sep b := by
  rw [pySplit_eq sep hsep s, h]

/-- `pySplit` never returns the empty list. -/
theorem pySplit_ne_nil (sep s : List Char) : pySplit sep s ≠ [] := by
  rw [pySplit]
  generalize s.length = fuel
  cases fuel with
  | zero => simp [pySplitFuel]
  | succ n =>
    rw [pySplitFuel]
    cases splitFirst sep s with
    | none => simp
    | some ab =>
      obtain ⟨a, b⟩ := ab
      simp

end SplitLemmas

section TagLikeLemmas

/-- First-occurrence decomposition for a contained character. -/
theorem contains_first_decomp (a : Char) :
    ∀ l : List Char, l.contains a = true →
      ∃ v w, l = v ++ a :: w ∧ ∀ c ∈ v, c ≠ a := by
  intro l
  induction l with
  | nil => intro h; simp at h
  | cons c rest ih =>
    intro h
    by_cases hc : c = a
    · exact ⟨[], rest, by rw [hc]; rfl, by simp⟩
    · have h2 : rest.contains a = true := by
        have hm : a ∈ c :: rest := by simpa using h
        have ha : a ∈ rest := by
          rcases List.mem_cons.mp hm with h1 | h1
          · exact absurd h1.symm hc
          · exact h1
        simpa using ha
      obtain ⟨v, w, hdec, hfree⟩ := ih h2
      refine ⟨c :: v, w, by rw [hdec]; rfl, ?_⟩
      intro x hx
      rcases List.mem_cons.mp hx with h1 | h1
      · rw [h1]; exact hc
      · exact hfree x h1

/-- The residual-markup guard `re.search(r"<[^>]*>", s)` fires exactly when
`s` has a decomposition `u ++ '<' :: v ++ '>' :: w` with no `>` inside `v`. -/
theorem hasTagLike_iff (s : List Char) :
    hasTagLike s = true ↔
      ∃ u v w, s = u ++ '<' :: (v ++ '>' :: w) ∧ ∀ c ∈ v, c ≠ '>' := by
  constructor
  · intro h
    induction s with
    | nil => simp [hasTagLike] at h
    | cons c rest ih =>
      rw [hasTagLike] at h
      rcases (Bool.or_eq_true _ _).mp h with h1 | h1
      · obtain ⟨hc, hcont⟩ := (Bool.and_eq_true _ _).mp h1
        have hc2 : c = '<' := by simpa using hc
        obtain ⟨v, w, hdec, hfree⟩ := contains_first_decomp '>' rest hcont
        exact ⟨[], v, w, by rw [hc2, hdec]; rfl, hfree⟩
      · obtain ⟨u, v, w, hdec, hfree⟩ := ih h1
        exact ⟨c :: u, v, w, by rw [hdec]; rfl, hfree⟩
  · rintro ⟨u, v, w, hdec, hfree⟩
    subst hdec
    induction u with
    | nil =>
      rw [List.nil_append, hasTagLike]
      apply (Bool.or_eq_true _ _).mpr
      left
      apply (Bool.and_eq_true _ _).mpr
      constructor
      · simp
      · simp
    | cons x u ih =>
      rw [List.cons_append, hasTagLike]
      apply (Bool.or_eq_true _ _).mpr
      right
      exact ih

end TagLikeLemmas

/-- Claim C1: for every input text containing a well-formed
`<tag>X</tag>` span, `extract` on a configuration with that outer tag and no
inner tag returns the inner content of the first such span (leftmost opening
tag, group ending at the first following closing tag), trimmed of
surrounding whitespace, whatever text surrounds the span. -/
theorem extract_wellformed_outer_span (tag text : List Char) (nt : Option (List Char))
    (f1 f2 f3 : Bool) (htag : tag ≠ [])
    (_halnum : ∀ c ∈ tag, c.isAlphanum = true)
    (hspan : ∃ a y b, text = a ++ openTag tag ++ y ++ closeTag tag ++ b) :
    ∃ a y b, text = a ++ openTag tag ++ y ++ closeTag tag ++ b ∧
      (∀ i, i < a.length → ¬ openTag tag <+: text.drop i) ∧
      (∀ i, i < y.length → ¬ closeTag tag <+: (y ++ closeTag tag ++ b).drop i) ∧
      extract { outer_tag := some tag, inner_tag := none, next_outer_tag := nt,
                fail_if_final_tag := f1, fail_if_inner_tag := f2,
                fail_if_next_outer_tag := f3 } text = .ok (pyStrip y) := by
  have hopn : openTag tag ≠ [] := by simp [openTag]
  have hcls : closeTag tag ≠ [] := by simp [closeTag]
  have hsome := searchSpan_isSome (openTag tag) (closeTag tag) hopn hcls text hspan
  obtain ⟨y, hy⟩ := Option.isSome_iff_exists.mp hsome
  obtain ⟨a, b, hdec, hopen, hclose⟩ :=
    searchSpan_eq_some (openTag tag) (closeTag tag) hcls text y hy
  refine ⟨a, y, b, hdec, hopen, hclose, ?_⟩
  simp only [extract, hy, if_neg htag]

/-- Claim C7: with an outer tag configured and the default
`fail_if_final_tag = true`, `extract` rejects with a `ParsingError` every
text in which the opening tag does not occur at all. -/
theorem extract_missing_open_tag_strict (tag text : List Char)
    (it nt : Option (List Char)) (f2 f3 : Bool) (htag : tag ≠ [])
    (_halnum : ∀ c ∈ tag, c.isAlphanum = true)
    (habsent : ¬ openTag tag <:+: text) :
    extract { outer_tag := some tag, inner_tag := it, next_outer_tag := nt,
              fail_if_final_tag := true, fail_if_inner_tag := f2,
              fail_if_next_outer_tag := f3 } text = .error .parsingError := by
  have hcls : closeTag tag ≠ [] := by simp [closeTag]
  have hnone := searchSpan_eq_none_of_not_occurs (openTag tag) (closeTag tag) text hcls habsent
  simp only [extract, hnone, if_neg htag]
  rw [if_pos (Or.inl trivial)]

/-- Claim C10 (implicit): even with `fail_if_final_tag = false`, a text in
which the opening tag does not occur at all is rejected with a
`ParsingError` — the tolerance flag only rescues texts where the opening tag
is present but unclosed. -/
theorem extract_missing_open_tag_tolerant (tag text : List Char)
    (it nt : Option (List Char)) (f2 f3 : Bool) (htag : tag ≠ [])
    (_halnum : ∀ c ∈ tag, c.isAlphanum = true)
    (habsent : ¬ openTag tag <:+: text) :
    extract { outer_tag := some tag, inner_tag := it, next_outer_tag := nt,
              fail_if_final_tag := false, fail_if_inner_tag := f2,
              fail_if_next_outer_tag := f3 } text = .error .parsingError := by
  have hcls : closeTag tag ≠ [] := by simp [closeTag]
  have hnone := searchSpan_eq_none_of_not_occurs (openTag tag) (closeTag tag) text hcls habsent
  have hsf : splitFirst (openTag tag) text = none :=
    splitFirst_eq_none_of_not_occurs (openTag tag) text habsent
  have hsplit : pySplit (openTag tag) text = [text] := pySplit_of_none (openTag tag) text hsf
  simp only [extract, hnone, if_neg htag, hsplit]
  have hcond : (false = true ∨ ([text] : List (List Char)).length = 1) := Or.inr (by simp)
  rw [if_pos hcond]

/-- Claim C8: with an inner fence tag configured and no outer tag, a content
containing a fenced block labeled with that tag yields the first block's
body trimmed; when no such block occurs, `extract` raises `ParsingError` if
`fail_if_inner_tag` is true and returns the content unchanged otherwise. -/
theorem extract_inner_fence (itag content : List Char) (f : Bool) (hitag : itag ≠ [])
    (_halnum : ∀ c ∈ itag, c.isAlphanum = true) :
    ((∃ a y b, content = a ++ fenceTag itag ++ y ++ "```".toList ++ b) →
      ∃ a y b, content = a ++ fenceTag itag ++ y ++ "```".toList ++ b ∧
        (∀ i, i < a.length → ¬ fenceTag itag <+: content.drop i) ∧
        (∀ i, i < y.length → ¬ "```".toList <+: (y ++ "```".toList ++ b).drop i) ∧
        extract { outer_tag := none, inner_tag := some itag, next_outer_tag := none,
                  fail_if_final_tag := true, fail_if_inner_tag := f,
                  fail_if_next_outer_tag := true } content = .ok (pyStrip y)) ∧
    ((¬ ∃ a y b, content = a ++ fenceTag itag ++ y ++ "```".toList ++ b) →
      extract { outer_tag := none, inner_tag := some itag, next_outer_tag := none,
                fail_if_final_tag := true, fail_if_inner_tag := f,
                fail_if_next_outer_tag := true } content =
        if f then .error .parsingError else .ok content) := by
  have hopn : fenceTag itag ≠ [] := by simp [fenceTag]
  have hcls : ("```".toList : List Char) ≠ [] := by simp
  constructor
  · intro hspan
    have hsome := searchSpan_isSome (fenceTag itag) ("```".toList) hopn hcls content hspan
    obtain ⟨y, hy⟩ := Option.isSome_iff_exists.mp hsome
    obtain ⟨a, b, hdec, hopen, hclose⟩ :=
      searchSpan_eq_some (fenceTag itag) ("```".toList) hcls content y hy
    refine ⟨a, y, b, hdec, hopen, hclose, ?_⟩
    simp only [extract, hy, if_neg hitag]
  · intro hnospan
    have hnone := searchSpan_eq_none_of_no_span (fenceTag itag) ("```".toList) content hcls hnospan
    simp only [extract, hnone, if_neg hitag]

/-- Claim C6: in the fallback path (no well-formed span, opening tag present
so the split has a second segment, `fail_if_final_tag = false`, no next
outer tag), a tentative match still containing an angle-bracket tag-like
substring is rejected with a `ParsingError` instead of being returned. -/
theorem extract_fallback_residual_markup (tag text : List Char)
    (it : Option (List Char)) (f2 f3 : Bool)
    (s0 pm : List Char) (restParts : List (List Char)) (htag : tag ≠ [])
    (_halnum : ∀ c ∈ tag, c.isAlphanum = true)
    (hnospan : ¬ ∃ a y b, text = a ++ openTag tag ++ y ++ closeTag tag ++ b)
    (hsplit : pySplit (openTag tag) text = s0 :: pm :: restParts)
    (hlike : ∃ u v w, pm = u ++ '<' :: (v ++ '>' :: w) ∧ ∀ c ∈ v, c ≠ '>') :
    extract { outer_tag := some tag, inner_tag := it, next_outer_tag := none,
              fail_if_final_tag := false, fail_if_inner_tag := f2,
              fail_if_next_outer_tag := f3 } text = .error .parsingError := by
  have hcls : closeTag tag ≠ [] := by simp [closeTag]
  have hnone := searchSpan_eq_none_of_no_span (openTag tag) (closeTag tag) text hcls hnospan
  have hTL : hasTagLike pm = true := (hasTagLike_iff pm).mpr hlike
  simp only [extract, hnone, if_neg htag, hsplit]
  have hcond : ¬ (false = true ∨ (s0 :: pm :: restParts : List (List Char)).length = 1) := by
    simp
  rw [if_neg hcond]
  simp [hTL]

/-- Claim C5: in the fallback path with a tolerated next outer tag whose
opening form occurs inside the tentative match, `extract` re-splits the
tentative match on that opening form: a one-segment re-split would raise
`ParsingError` (the occurrence in fact guarantees at least two segments),
and otherwise the portion before the next tag, stripped, becomes the match,
returned unless the residual-markup guard rejects it. -/
theorem extract_fallback_next_tag (tag nt text : List Char) (f2 : Bool)
    (s0 pm : List Char) (restParts : List (List Char)) (htag : tag ≠ [])
    (_halnum : ∀ c ∈ tag, c.isAlphanum = true)
    (hnospan : ¬ ∃ a y b, text = a ++ openTag tag ++ y ++ closeTag tag ++ b)
    (hsplit : pySplit (openTag tag) text = s0 :: pm :: restParts)
    (hin : containsSub (openTag nt) pm = true) :
    ((pySplit (openTag nt) pm).length = 1 →
      extract { outer_tag := some tag, inner_tag := none, next_outer_tag := some nt,
                fail_if_final_tag := false, fail_if_inner_tag := f2,
                fail_if_next_outer_tag := false } text = .error .parsingError) ∧
    (∀ q qrest, pySplit (openTag nt) pm = q :: qrest → qrest ≠ [] →
      extract { outer_tag := some tag, inner_tag := none, next_outer_tag := some nt,
                fail_if_final_tag := false, fail_if_inner_tag := f2,
                fail_if_next_outer_tag := false } text =
        if hasTagLike (pyStrip q) then .error .parsingError else .ok (pyStrip q)) := by
  have hcls : closeTag tag ≠ [] := by simp [closeTag]
  have hnone := searchSpan_eq_none_of_no_span (openTag tag) (closeTag tag) text hcls hnospan
  have hntne : openTag nt ≠ [] := by simp [openTag]
  have hsome : (splitFirst (openTag nt) pm).isSome := by rw [containsSub] at hin; exact hin
  obtain ⟨ab, hab⟩ := Option.isSome_iff_exists.mp hsome
  have hsplit2 : pySplit (openTag nt) pm = ab.1 :: pySplit (openTag nt) ab.2 :=
    pySplit_of_some (openTag nt) hntne pm ab.1 ab.2 (by rw [hab])
  constructor
  · intro hlen
    exfalso
    rw [hsplit2] at hlen
    have hne := pySplit_ne_nil (openTag nt) ab.2
    simp at hlen
    exact hne hlen
  · intro q qrest hq hqrest
    simp only [extract, hnone, if_neg htag, hsplit]
    have hcond : ¬ (false = true ∨ (s0 :: pm :: restParts : List (List Char)).length = 1) := by
      simp
    rw [if_neg hcond]
    have hlen2 : ¬ (pySplit (openTag nt) pm).length = 1 := by
      rw [hq]
      cases qrest with
      | nil => exact absurd rfl hqrest
      | cons q1 qs => simp
    simp only [List.getD_cons_succ, List.getD_cons_zero, Bool.not_false, Bool.true_and, hin,
      if_pos trivial]
    rw [if_neg hlen2, hq]
    simp only [List.getD_cons_zero]
    by_cases hg : hasTagLike (pyStrip q) = true
    · simp [hg]
    · simp [hg]

/-- Claim C9 counterexample: with an outer tag configured, the first call
unwraps `<r>hello</r>` to `hello`, but a second call on that already
unwrapped, tag-free output raises `ParsingError` instead of returning it
unchanged — so `extract` is not idempotent for every configuration. -/
theorem extract_idempotence_counterexample :
    extract { outer_tag := some ("r".toList) } ("<r>hello</r>".toList)
      = .ok ("hello".toList) ∧
    extract { outer_tag := some ("r".toList) } ("hello".toList)
      ≠ .ok ("hello".toList) := by
  constructor
  · rfl
  · intro h
    rw [show extract { outer_tag := some ("r".toList) } ("hello".toList)
        = Except.error NotteError.parsingError from rfl] at h
    exact Except.noConfusion h

/-- Claim C9 (amended): idempotence holds for every configuration without an
effective outer tag and with a tolerant inner stage: if `extract` returned
`out` and no fence opening for the configured inner tag remains in `out`, a
second call returns `out` unchanged.  (With an outer tag configured — or a
strict inner stage — a tag-free output raises `ParsingError` instead, as the
counterexample shows.) -/
theorem extract_idempotent_tolerant (sc : StructuredContent) (text out : List Char)
    (houter : sc.outer_tag = none ∨ sc.outer_tag = some [])
    (hinner : sc.inner_tag = none ∨ sc.inner_tag = some [] ∨ sc.fail_if_inner_tag = false)
    (_hout : extract sc text = .ok out)
    (hnotags : ∀ itag, sc.inner_tag = some itag → containsSub (fenceTag itag) out = false) :
    extract sc out = .ok out := by
  have hred : extract sc out =
      match sc.inner_tag with
      | none => .ok out
      | some itag =>
        if itag = [] then .ok out
        else
          match searchSpan (fenceTag itag) ("```".toList) out with
          | some g => .ok (pyStrip g)
          | none => if sc.fail_if_inner_tag then .error .parsingError else .ok out := by
    rcases houter with ho | ho
    · simp only [extract, ho]
    · simp [extract, ho]
  rw [hred]
  cases hI : sc.inner_tag with
  | none => rfl
  | some itag =>
    by_cases hit : itag = []
    · simp [hit]
    · have hcs := hnotags itag hI
      have hocc : ¬ fenceTag itag <:+: out := by
        intro h
        have h2 := (containsSub_iff_occurs (fenceTag itag) out (by simp [fenceTag])).mpr h
        rw [hcs] at h2
        exact Bool.false_ne_true h2
      have hnone := searchSpan_eq_none_of_not_occurs (fenceTag itag) ("```".toList) out
        (by simp) hocc
      have hf : sc.fail_if_inner_tag = false := by
        rcases hinner with h | h | h
        · rw [hI] at h; exact Option.noConfusion h
        · rw [hI] at h
          exact absurd (Option.some.inj h) hit
        · exact h
      show (if itag = [] then Except.ok out
        else match searchSpan (fenceTag itag) ("```".toList) out with
          | some g => Except.ok (pyStrip g)
          | none => if sc.fail_if_inner_tag = true then Except.error NotteError.parsingError
            else Except.ok out) = Except.ok out
      rw [if_neg hit, hnone, hf]
      rfl

section SizePatternLemmas

/-- `takeWhile`/`dropWhile` on an all-true block followed by a block whose
head fails the predicate. -/
theorem takeWhile_append_block (p : Char → Bool) (d rest : List Char)
    (hd : ∀ c ∈ d, p c = true)
    (hrest : ∀ r rs, rest = r :: rs → p r = false) :
    (d ++ rest).takeWhile p = d ∧ (d ++ rest).dropWhile p = rest := by
  induction d with
  | nil =>
    cases rest with
    | nil => simp
    | cons r rs =>
      have hr := hrest r rs rfl
      simp [List.takeWhile_cons, List.dropWhile_cons, hr]
  | cons x d ih =>
    have hx : p x = true := hd x (by simp)
    have ih2 := ih (fun c hc => hd c (by simp [hc]))
    simp [List.takeWhile_cons, List.dropWhile_cons, hx, ih2.1, ih2.2]

/-- `matchSizesAt` succeeds on an anchored pattern instance: both literals in
place, maximal non-empty digit runs, no digit immediately after. -/
theorem matchSizesAt_of_decomp (d1 d2 post : List Char)
    (h1 : d1 ≠ []) (h2 : d2 ≠ [])
    (hd1 : ∀ c ∈ d1, c.isDigit = true) (hd2 : ∀ c ∈ d2, c.isDigit = true)
    (hpost : ∀ p ps, post = p :: ps → p.isDigit = false) :
    matchSizesAt (litCur ++ d1 ++ litLim ++ d2 ++ post)
      = some (digitsToNat d1, digitsToNat d2) := by
  have hs : litCur ++ d1 ++ litLim ++ d2 ++ post
      = litCur ++ (d1 ++ (litLim ++ (d2 ++ post))) := by simp
  have hlim : ∀ r rs, litLim ++ (d2 ++ post) = r :: rs → Char.isDigit r = false := by
    intro r rs h
    have hl : litLim ++ (d2 ++ post) = ' ' :: ("while limit is ".toList ++ (d2 ++ post)) := rfl
    rw [hl] at h
    cases h
    rfl
  obtain ⟨ht1, hw1⟩ := takeWhile_append_block Char.isDigit d1 (litLim ++ (d2 ++ post)) hd1 hlim
  obtain ⟨ht2, hw2⟩ := takeWhile_append_block Char.isDigit d2 post hd2 hpost
  rw [hs, matchSizesAt]
  rw [if_pos (List.isPrefixOf_iff_prefix.mpr (List.prefix_append litCur _))]
  simp only [List.drop_left]
  rw [ht1, hw1]
  rw [if_neg h1]
  rw [if_pos (List.isPrefixOf_iff_prefix.mpr (List.prefix_append litLim _))]
  simp only [List.drop_left]
  rw [ht2]
  rw [if_neg h2]

/-- `matchSizesAt` fails when the first literal is not anchored at the head. -/
theorem matchSizesAt_none_of_unanchored (s : List Char) (h : ¬ litCur <+: s) :
    matchSizesAt s = none := by
  rw [matchSizesAt, if_neg (fun hp => h (List.isPrefixOf_iff_prefix.mp hp))]

/-- The head of a `dropWhile` residue fails the predicate. -/
theorem dropWhile_head_false (p : Char → Bool) :
    ∀ (l : List Char) (x : Char) (xs : List Char), l.dropWhile p = x :: xs → p x = false := by
  intro l
  induction l with
  | nil => intro x xs h; exact List.noConfusion h
  | cons c rest ih =>
    intro x xs h
    rw [List.dropWhile_cons] at h
    by_cases hc : p c = true
    · rw [if_pos hc] at h
      exact ih x xs h
    · rw [if_neg hc] at h
      injection h with h1 h2
      rw [← h1]
      exact Bool.eq_false_iff.mpr hc

/-- Soundness of `matchSizesAt`: success yields an anchored decomposition
into the two literals, two non-empty maximal digit runs (nothing following
the second run starts with a digit), and the parsed values. -/
theorem matchSizesAt_eq_some (s : List Char) (n m : Nat)
    (h : matchSizesAt s = some (n, m)) :
    ∃ d1 d2 post, s = litCur ++ d1 ++ litLim ++ d2 ++ post ∧ d1 ≠ [] ∧ d2 ≠ [] ∧
      (∀ c ∈ d1, c.isDigit = true) ∧ (∀ c ∈ d2, c.isDigit = true) ∧
      (∀ p ps, post = p :: ps → p.isDigit = false) ∧
      n = digitsToNat d1 ∧ m = digitsToNat d2 := by
  rw [matchSizesAt] at h
  by_cases hp : litCur.isPrefixOf s
  · rw [if_pos hp] at h
    by_cases hd1 : (s.drop litCur.length).takeWhile Char.isDigit = []
    · rw [if_pos hd1] at h; exact absurd h (by simp)
    · rw [if_neg hd1] at h
      by_cases hp2 : litLim.isPrefixOf ((s.drop litCur.length).dropWhile Char.isDigit)
      · rw [if_pos hp2] at h
        by_cases hd2 : (((s.drop litCur.length).dropWhile Char.isDigit).drop
            litLim.length).takeWhile Char.isDigit = []
        · rw [if_pos hd2] at h; exact absurd h (by simp)
        · rw [if_neg hd2] at h
          obtain ⟨hn, hm⟩ := Prod.mk.injEq .. ▸ Option.some.inj h
          obtain ⟨t1, ht1⟩ := List.isPrefixOf_iff_prefix.mp hp
          have hr1 : s.drop litCur.length = t1 := by rw [← ht1, List.drop_left]
          obtain ⟨t2, ht2⟩ := List.isPrefixOf_iff_prefix.mp hp2
          have hr2 : ((s.drop litCur.length).dropWhile Char.isDigit).drop litLim.length = t2 := by
            rw [← ht2, List.drop_left]
          refine ⟨(s.drop litCur.length).takeWhile Char.isDigit,
            (((s.drop litCur.length).dropWhile Char.isDigit).drop
              litLim.length).takeWhile Char.isDigit,
            ((((s.drop litCur.length).dropWhile Char.isDigit).drop
              litLim.length).dropWhile Char.isDigit), ?_, hd1, hd2,
            fun c hc => List.mem_takeWhile_imp hc,
            fun c hc => List.mem_takeWhile_imp hc,
            fun p ps hps => dropWhile_head_false Char.isDigit
              (((s.drop litCur.length).dropWhile Char.isDigit).drop litLim.length) p ps hps,
            hn.symm, hm.symm⟩
          subst hr2
          subst hr1
          calc s = litCur ++ s.drop litCur.length := ht1.symm
            _ = litCur ++ ((s.drop litCur.length).takeWhile Char.isDigit
                ++ (s.drop litCur.length).dropWhile Char.isDigit) := by
              rw [List.takeWhile_append_dropWhile]
            _ = litCur ++ ((s.drop litCur.length).takeWhile Char.isDigit
                ++ (litLim ++ ((s.drop litCur.length).dropWhile Char.isDigit).drop
                  litLim.length)) := by
              rw [ht2]
            _ = litCur ++ ((s.drop litCur.length).takeWhile Char.isDigit
                ++ (litLim ++
                  ((((s.drop litCur.length).dropWhile Char.isDigit).drop
                      litLim.length).takeWhile Char.isDigit
                    ++ (((s.drop litCur.length).dropWhile Char.isDigit).drop
                      litLim.length).dropWhile Char.isDigit))) := by
              rw [List.takeWhile_append_dropWhile]
            _ = litCur ++ (s.drop litCur.length).takeWhile Char.isDigit ++ litLim
                ++ (((s.drop litCur.length).dropWhile Char.isDigit).drop
                  litLim.length).takeWhile Char.isDigit
                ++ (((s.drop litCur.length).dropWhile Char.isDigit).drop
                  litLim.length).dropWhile Char.isDigit := by
              simp [List.append_assoc]
      · rw [if_neg hp2] at h; exact absurd h (by simp)
  · rw [if_neg hp] at h; exact absurd h (by simp)

/-- Unfolding equation for `parseContextSizes` on a non-empty input. -/
theorem parseContextSizes_eq (s : List Char) (hs : s ≠ []) :
    parseContextSizes s =
      match matchSizesAt s with
      | some r => some r
      | none => parseContextSizes s.tail := by
  cases s with
  | nil => exact absurd rfl hs
  | cons c rest => rfl

/-- `parseContextSizes` finds a pattern instance anchored at the first
occurrence of the leading literal. -/
theorem parseContextSizes_of_decomp (pre d1 d2 post : List Char)
    (h1 : d1 ≠ []) (h2 : d2 ≠ [])
    (hd1 : ∀ c ∈ d1, c.isDigit = true) (hd2 : ∀ c ∈ d2, c.isDigit = true)
    (hpost : ∀ p ps, post = p :: ps → p.isDigit = false)
    (hfirst : ∀ i, i < pre.length →
      ¬ litCur <+: (pre ++ litCur ++ d1 ++ litLim ++ d2 ++ post).drop i) :
    parseContextSizes (pre ++ litCur ++ d1 ++ litLim ++ d2 ++ post)
      = some (digitsToNat d1, digitsToNat d2) := by
  induction pre with
  | nil =>
    have hm := matchSizesAt_of_decomp d1 d2 post h1 h2 hd1 hd2 hpost
    simp only [List.nil_append]
    rw [parseContextSizes_eq _ (by simp [litCur]), hm]
  | cons x pre ih =>
    have hs : (x :: pre) ++ litCur ++ d1 ++ litLim ++ d2 ++ post
        = x :: (pre ++ litCur ++ d1 ++ litLim ++ d2 ++ post) := by simp
    have hnp : ¬ litCur <+: (x :: pre) ++ litCur ++ d1 ++ litLim ++ d2 ++ post := by
      have := hfirst 0 (by simp)
      simpa using this
    rw [hs, parseContextSizes]
    rw [matchSizesAt_none_of_unanchored _ (by rw [← hs]; exact hnp)]
    exact ih (fun i hi => by
      have := hfirst (i + 1) (by simpa using Nat.succ_lt_succ hi)
      rw [hs] at this
      simpa using this)

/-- `matchSizesAt` succeeds on any anchored pattern instance, maximal digit
runs or not: the greedy second run simply absorbs any digits opening the
tail. -/
theorem matchSizesAt_isSome_of_decomp (d1 d2 post : List Char)
    (h1 : d1 ≠ []) (h2 : d2 ≠ [])
    (hd1 : ∀ c ∈ d1, c.isDigit = true) (hd2 : ∀ c ∈ d2, c.isDigit = true) :
    (matchSizesAt (litCur ++ d1 ++ litLim ++ d2 ++ post)).isSome := by
  have hre : litCur ++ d1 ++ litLim ++ d2 ++ post
      = litCur ++ d1 ++ litLim ++ (d2 ++ post.takeWhile Char.isDigit)
          ++ post.dropWhile Char.isDigit := by
    simp only [List.append_assoc, List.takeWhile_append_dropWhile]
  rw [hre, matchSizesAt_of_decomp d1 (d2 ++ post.takeWhile Char.isDigit)
    (post.dropWhile Char.isDigit) h1 (by simp [h2]) hd1
    (by
      intro c hc
      rcases List.mem_append.mp hc with hmem | hmem
      · exact hd2 c hmem
      · exact List.mem_takeWhile_imp hmem)
    (fun p ps hps => dropWhile_head_false Char.isDigit post p ps hps)]
  rfl

/-- Completeness of `parseContextSizes`: any occurrence of the pattern
anywhere in the message makes the search succeed. -/
theorem parseContextSizes_isSome (msg : List Char)
    (h : ∃ pre d1 d2 post, msg = pre ++ litCur ++ d1 ++ litLim ++ d2 ++ post ∧
      d1 ≠ [] ∧ d2 ≠ [] ∧ (∀ c ∈ d1, c.isDigit = true) ∧ (∀ c ∈ d2, c.isDigit = true)) :
    (parseContextSizes msg).isSome := by
  induction msg with
  | nil =>
    obtain ⟨pre, d1, d2, post, hdec, -, -, -, -⟩ := h
    have hlen : ([] : List Char).length
        = (pre ++ litCur ++ d1 ++ litLim ++ d2 ++ post).length := by rw [hdec]
    simp only [List.length_nil, List.length_append] at hlen
    have hpos : 0 < litCur.length := by decide
    omega
  | cons c rest ih =>
    obtain ⟨pre, d1, d2, post, hdec, h1, h2, hd1, hd2⟩ := h
    rw [parseContextSizes]
    cases hm : matchSizesAt (c :: rest) with
    | some r => rfl
    | none =>
      cases pre with
      | nil =>
        exfalso
        have hsome := matchSizesAt_isSome_of_decomp d1 d2 post h1 h2 hd1 hd2
        have hdec2 : c :: rest = litCur ++ d1 ++ litLim ++ d2 ++ post := by
          simpa using hdec
        rw [← hdec2, hm] at hsome
        simp at hsome
      | cons p pre1 =>
        have hrest : rest = pre1 ++ litCur ++ d1 ++ litLim ++ d2 ++ post := by
          have hc : c :: rest = p :: (pre1 ++ litCur ++ d1 ++ litLim ++ d2 ++ post) := by
            rw [hdec]; rfl
          injection hc with hc1 hc2
        exact ih ⟨pre1, d1, d2, post, hrest, h1, h2, hd1, hd2⟩

/-- Soundness of `parseContextSizes`: success yields the decomposition at
the leftmost position where the full pattern matches, with maximal digit
runs and the parsed values. -/
theorem parseContextSizes_eq_some (s : List Char) (n m : Nat)
    (h : parseContextSizes s = some (n, m)) :
    ∃ pre d1 d2 post, s = pre ++ litCur ++ d1 ++ litLim ++ d2 ++ post ∧
      d1 ≠ [] ∧ d2 ≠ [] ∧ (∀ c ∈ d1, c.isDigit = true) ∧ (∀ c ∈ d2, c.isDigit = true) ∧
      (∀ p ps, post = p :: ps → p.isDigit = false) ∧
      (∀ i, i < pre.length → matchSizesAt (s.drop i) = none) ∧
      n = digitsToNat d1 ∧ m = digitsToNat d2 := by
  induction s with
  | nil => rw [parseContextSizes] at h; exact absurd h (by simp)
  | cons c rest ih =>
    rw [parseContextSizes] at h
    cases hm : matchSizesAt (c :: rest) with
    | some r =>
      obtain ⟨rn, rm⟩ := r
      rw [hm] at h
      obtain ⟨hrn, hrm⟩ := Prod.mk.injEq .. ▸ Option.some.inj h
      obtain ⟨d1, d2, post, hdec, h1, h2, hd1, hd2, hpost, hn, hm2⟩ :=
        matchSizesAt_eq_some (c :: rest) rn rm hm
      refine ⟨[], d1, d2, post, by simpa using hdec, h1, h2, hd1, hd2, hpost,
        fun i hi => by simp at hi, ?_, ?_⟩
      · rw [← hrn]; exact hn
      · rw [← hrm]; exact hm2
    | none =>
      rw [hm] at h
      obtain ⟨pre, d1, d2, post, hdec, h1, h2, hd1, hd2, hpost, hfirst, hn, hm2⟩ := ih h
      refine ⟨c :: pre, d1, d2, post, by rw [hdec]; rfl, h1, h2, hd1, hd2, hpost, ?_, hn, hm2⟩
      intro i hi
      match i with
      | 0 => simpa using hm
      | j + 1 =>
        simp only [List.drop_succ_cons]
        exact hfirst j (by simpa using hi)

end SizePatternLemmas

/-- Claim C2: a context-window provider exception is classified as
`ContextWindowExceeded`; when the message matches
`Current length is (N) while limit is (M)` the error carries the two
integers of the first match — the leftmost position where the full pattern
matches, each `\d+` group maximal (the message
`Current length is 5000 while limit is 4096` yields 5000 and 4096) — and
both fields are `none` when the pattern does not occur in the message. -/
theorem completion_context_window (em : List Char) :
    completion em none (.contextWindowExceededError
        ("Current length is 5000 while limit is 4096".toList))
      = .error (.contextWindowExceeded em (some 5000) (some 4096)) ∧
    (∀ msg : List Char,
      (∃ pre d1 d2 post, msg = pre ++ litCur ++ d1 ++ litLim ++ d2 ++ post ∧
        d1 ≠ [] ∧ d2 ≠ [] ∧
        (∀ c ∈ d1, c.isDigit = true) ∧ (∀ c ∈ d2, c.isDigit = true)) →
      ∃ pre d1 d2 post, msg = pre ++ litCur ++ d1 ++ litLim ++ d2 ++ post ∧
        d1 ≠ [] ∧ d2 ≠ [] ∧
        (∀ c ∈ d1, c.isDigit = true) ∧ (∀ c ∈ d2, c.isDigit = true) ∧
        (∀ p ps, post = p :: ps → p.isDigit = false) ∧
        (∀ i, i < pre.length → ¬ ∃ e1 e2 tail, msg.drop i
            = litCur ++ e1 ++ litLim ++ e2 ++ tail ∧ e1 ≠ [] ∧ e2 ≠ [] ∧
          (∀ c ∈ e1, c.isDigit = true) ∧ (∀ c ∈ e2, c.isDigit = true)) ∧
        completion em none (.contextWindowExceededError msg)
          = .error (.contextWindowExceeded em
              (some (digitsToNat d1)) (some (digitsToNat d2)))) ∧
    (∀ msg : List Char,
      (¬ ∃ pre d1 d2 post, msg = pre ++ litCur ++ d1 ++ litLim ++ d2 ++ post ∧
        d1 ≠ [] ∧ d2 ≠ [] ∧
        (∀ c ∈ d1, c.isDigit = true) ∧ (∀ c ∈ d2, c.isDigit = true)) →
      completion em none (.contextWindowExceededError msg)
        = .error (.contextWindowExceeded em none none)) := by
  refine ⟨rfl, ?_, ?_⟩
  · intro msg hex
    have hsome := parseContextSizes_isSome msg hex
    obtain ⟨r, hp⟩ := Option.isSome_iff_exists.mp hsome
    obtain ⟨rn, rm⟩ := r
    obtain ⟨pre, d1, d2, post, hdec, h1, h2, hd1, hd2, hpost, hfirst, hn, hm2⟩ :=
      parseContextSizes_eq_some msg rn rm hp
    refine ⟨pre, d1, d2, post, hdec, h1, h2, hd1, hd2, hpost, ?_, ?_⟩
    · intro i hi hex2
      obtain ⟨e1, e2, tail, hdec2, he1, he2, hde1, hde2⟩ := hex2
      have hsome2 := matchSizesAt_isSome_of_decomp e1 e2 tail he1 he2 hde1 hde2
      rw [← hdec2, hfirst i hi] at hsome2
      simp at hsome2
    · simp only [completion]
      rw [hp, hn, hm2]
      rfl
  · intro msg hno
    have hnone : parseContextSizes msg = none := by
      cases hp : parseContextSizes msg with
      | none => rfl
      | some r =>
        obtain ⟨pre, d1, d2, post, hdec, h1, h2, hd1, hd2, -, -, -, -⟩ :=
          parseContextSizes_eq_some msg r.1 r.2 (by rw [hp])
        exact absurd ⟨pre, d1, d2, post, hdec, h1, h2, hd1, hd2⟩ hno
    simp only [completion]
    rw [hnone]
    rfl

/-- Claim C3 counterexample: the claim fails for the explicit model argument
`""` — a given `str`, but falsy under Python `or` — where the raised
`RateLimit` carries the engine's default model, not the given argument. -/
theorem completion_rate_limit_counterexample :
    completion ("groq/llama-3.3-70b-versatile".toList) (some []) .rateLimitError
      = .error (.rateLimit ("groq/llama-3.3-70b-versatile".toList)) ∧
    completion ("groq/llama-3.3-70b-versatile".toList) (some []) .rateLimitError
      ≠ .error (.rateLimit []) := by
  constructor
  · rfl
  · intro h
    rw [show completion ("groq/llama-3.3-70b-versatile".toList) (some []) .rateLimitError
        = Except.error (.rateLimit ("groq/llama-3.3-70b-versatile".toList)) from rfl] at h
    have h2 := Except.error.inj h
    have h3 := NotteError.rateLimit.inj h2
    exact absurd h3 (by decide)

/-- Claim C3 (amended): a rate-limit provider failure raises exactly
`RateLimit` carrying the requested model id — the explicit model argument
when given and non-empty, and the engine's default model when the argument
is absent or the empty string (Python `or` treats `""` as absent). -/
theorem completion_rate_limit (em m : List Char) (hm : m ≠ []) :
    completion em (some m) .rateLimitError = .error (.rateLimit m) ∧
    completion em none .rateLimitError = .error (.rateLimit em) ∧
    completion em (some []) .rateLimitError = .error (.rateLimit em) := by
  refine ⟨?_, rfl, rfl⟩
  simp [completion, pyOr, hm]

/-- Claim C4: in `structured_completion`, after trimming and extracting the
completion text: a content still containing the fenced marker for a json
block is re-extracted through the same extractor and the result validated; a
content without the marker that does not both start with an opening brace
and end with a closing brace raises `ParsingError`; and a schema-validation
failure on the final text is raised as `ParsingError` rather than
propagating the validation exception. -/
theorem structured_completion_spec (σ : Type) (validate : List Char → Option σ)
    (em raw c1 : List Char)
    (h1 : extract scJson (pyStrip raw) = .ok c1) :
    (containsSub ("```json".toList) (pyStrip c1) = true →
      ∀ c2, extract scJson (pyStrip c1) = .ok c2 →
        structured_completion validate em none (.success raw) =
          match validate (pyStrip c2) with
          | some v => .ok v
          | none => .error .parsingError) ∧
    (containsSub ("```json".toList) (pyStrip c1) = false →
      (¬ (['\x7b'].isPrefixOf (pyStrip c1) = true) ∨
        ¬ (pyEndsWith ['\x7d'] (pyStrip c1) = true)) →
      structured_completion validate em none (.success raw) = .error .parsingError) ∧
    (containsSub ("```json".toList) (pyStrip c1) = false →
      ['\x7b'].isPrefixOf (pyStrip c1) = true →
      pyEndsWith ['\x7d'] (pyStrip c1) = true →
      validate (pyStrip c1) = none →
      structured_completion validate em none (.success raw) = .error .parsingError) := by
  have hred : structured_completion validate em none (.success raw) =
      (match (if containsSub ("```json".toList) (pyStrip c1) = true then
          match extract scJson (pyStrip c1) with
          | Except.error e => Except.error e
          | Except.ok c2 => Except.ok (pyStrip c2)
        else if ¬ (['\x7b'].isPrefixOf (pyStrip c1) = true) ∨
            ¬ (pyEndsWith ['\x7d'] (pyStrip c1) = true) then
          Except.error NotteError.parsingError
        else Except.ok (pyStrip c1)) with
      | Except.error e => Except.error e
      | Except.ok content =>
        match validate content with
        | some v => Except.ok v
        | none => Except.error NotteError.parsingError) := by
    simp only [structured_completion, single_completion, completion]
    rw [h1]
  refine ⟨?_, ?_, ?_⟩
  · intro hfence c2 hc2
    rw [hred, if_pos hfence, hc2]
  · intro hfence hbad
    rw [hred, if_neg (by rw [hfence]; exact Bool.false_ne_true), if_pos hbad]
  · intro hfence hstart hend hv
    rw [hred, if_neg (by rw [hfence]; exact Bool.false_ne_true),
      if_neg (fun h => h.elim (fun hn => hn hstart) (fun hn => hn hend))]
    show (match validate (pyStrip c1) with
      | some v => Except.ok v
      | none => Except.error NotteError.parsingError) = Except.error NotteError.parsingError
    rw [hv]

/-- Witness for claim C1 at a concrete surrounded span. -/
theorem extract_wellformed_outer_span_witness :
    ∃ a y b, ("noise <tag> hi </tag> more".toList)
        = a ++ openTag ("tag".toList) ++ y ++ closeTag ("tag".toList) ++ b ∧
      (∀ i, i < a.length →
        ¬ openTag ("tag".toList) <+: ("noise <tag> hi </tag> more".toList).drop i) ∧
      (∀ i, i < y.length →
        ¬ closeTag ("tag".toList) <+: (y ++ closeTag ("tag".toList) ++ b).drop i) ∧
      extract { outer_tag := some ("tag".toList), inner_tag := none, next_outer_tag := none,
                fail_if_final_tag := true, fail_if_inner_tag := true,
                fail_if_next_outer_tag := true } ("noise <tag> hi </tag> more".toList)
        = .ok (pyStrip y) :=
  extract_wellformed_outer_span ("tag".toList) ("noise <tag> hi </tag> more".toList) none
    true true true (by decide) (by decide)
    ⟨"noise ".toList, " hi ".toList, " more".toList, by decide⟩

/-- Witness for claim C2 at a message whose first occurrence of the leading
literal does not complete a match but whose later occurrence does. -/
theorem completion_context_window_witness :
    ∃ pre d1 d2 post,
      ("Current length is x Current length is 5 while limit is 6".toList)
        = pre ++ litCur ++ d1 ++ litLim ++ d2 ++ post ∧
      d1 ≠ [] ∧ d2 ≠ [] ∧
      (∀ c ∈ d1, c.isDigit = true) ∧ (∀ c ∈ d2, c.isDigit = true) ∧
      (∀ p ps, post = p :: ps → p.isDigit = false) ∧
      (∀ i, i < pre.length → ¬ ∃ e1 e2 tail,
        (("Current length is x Current length is 5 while limit is 6".toList).drop i)
          = litCur ++ e1 ++ litLim ++ e2 ++ tail ∧ e1 ≠ [] ∧ e2 ≠ [] ∧
        (∀ c ∈ e1, c.isDigit = true) ∧ (∀ c ∈ e2, c.isDigit = true)) ∧
      completion ("m".toList) none (.contextWindowExceededError
          ("Current length is x Current length is 5 while limit is 6".toList))
        = .error (.contextWindowExceeded ("m".toList)
            (some (digitsToNat d1)) (some (digitsToNat d2))) :=
  (completion_context_window ("m".toList)).2.1
    ("Current length is x Current length is 5 while limit is 6".toList)
    ⟨"Current length is x ".toList, "5".toList, "6".toList, [],
      by decide, by decide, by decide, by decide, by decide⟩

/-- Witness for claim C3 (amended) at concrete model identifiers. -/
theorem completion_rate_limit_witness :
    completion ("groq/llama-3.3-70b-versatile".toList) (some ("openai/gpt-4o".toList))
        .rateLimitError = .error (.rateLimit ("openai/gpt-4o".toList)) ∧
    completion ("groq/llama-3.3-70b-versatile".toList) none .rateLimitError
      = .error (.rateLimit ("groq/llama-3.3-70b-versatile".toList)) ∧
    completion ("groq/llama-3.3-70b-versatile".toList) (some []) .rateLimitError
      = .error (.rateLimit ("groq/llama-3.3-70b-versatile".toList)) :=
  completion_rate_limit ("groq/llama-3.3-70b-versatile".toList) ("openai/gpt-4o".toList)
    (by decide)

/-- Witness for claim C4: an unclosed fence is carried through re-extraction
and a failing validation surfaces as a `ParsingError`. -/
theorem structured_completion_spec_witness :
    structured_completion (fun _ => (none : Option Nat)) ("m".toList) none
      (.success ("```json x".toList)) = .error .parsingError :=
  (structured_completion_spec Nat (fun _ => none) ("m".toList) ("```json x".toList)
    ("```json x".toList) (by rfl)).1 (by rfl) ("```json x".toList) (by rfl)

/-- Witness for claim C5 at a concrete unclosed tag followed by a next tag. -/
theorem extract_fallback_next_tag_witness :
    extract { outer_tag := some ("r".toList), inner_tag := none,
              next_outer_tag := some ("s".toList), fail_if_final_tag := false,
              fail_if_inner_tag := true, fail_if_next_outer_tag := false }
      ("a <r> b <s> c".toList) = .ok ("b".toList) := by
  have h := extract_fallback_next_tag ("r".toList) ("s".toList) ("a <r> b <s> c".toList)
    true ("a ".toList) (" b <s> c".toList) [] (by decide) (by decide)
    (fun hsp => absurd (searchSpan_isSome (openTag ("r".toList)) (closeTag ("r".toList))
      (by decide) (by decide) ("a <r> b <s> c".toList) hsp) (by decide))
    (by rfl) (by rfl)
  have h2 := h.2 (" b ".toList) [" c".toList] (by rfl) (by decide)
  rw [h2]
  rfl

/-- Witness for claim C6 at a concrete residual `<x>` inside the tentative
match. -/
theorem extract_fallback_residual_markup_witness :
    extract { outer_tag := some ("r".toList), inner_tag := none, next_outer_tag := none,
              fail_if_final_tag := false, fail_if_inner_tag := true,
              fail_if_next_outer_tag := true } ("a <r> b <x> c".toList)
      = .error .parsingError :=
  extract_fallback_residual_markup ("r".toList) ("a <r> b <x> c".toList) none true true
    ("a ".toList) (" b <x> c".toList) [] (by decide) (by decide)
    (fun hsp => absurd (searchSpan_isSome (openTag ("r".toList)) (closeTag ("r".toList))
      (by decide) (by decide) ("a <r> b <x> c".toList) hsp) (by decide))
    (by rfl)
    ⟨" b ".toList, "x".toList, " c".toList, by decide, by decide⟩

/-- Witness for claim C7 at a concrete tag-free text. -/
theorem extract_missing_open_tag_strict_witness :
    extract { outer_tag := some ("tag".toList), inner_tag := none, next_outer_tag := none,
              fail_if_final_tag := true, fail_if_inner_tag := true,
              fail_if_next_outer_tag := true } ("no tags here at all".toList)
      = .error .parsingError :=
  extract_missing_open_tag_strict ("tag".toList) ("no tags here at all".toList) none none
    true true (by decide) (by decide) (by decide)

/-- Witness for claim C8: fence-free content is passed through unchanged by
a tolerant inner stage. -/
theorem extract_inner_fence_witness :
    extract { outer_tag := none, inner_tag := some ("json".toList), next_outer_tag := none,
              fail_if_final_tag := true, fail_if_inner_tag := false,
              fail_if_next_outer_tag := true } ("plain text".toList)
      = .ok ("plain text".toList) :=
  (extract_inner_fence ("json".toList) ("plain text".toList) false (by decide) (by decide)).2
    (fun hsp => absurd (searchSpan_isSome (fenceTag ("json".toList)) ("```".toList)
      (by decide) (by decide) ("plain text".toList) hsp) (by decide))

/-- Witness for claim C9 (amended) on the engine's own tolerant json
configuration. -/
theorem extract_idempotent_tolerant_witness :
    extract scJson ("abc".toList) = .ok ("abc".toList) :=
  extract_idempotent_tolerant scJson ("abc".toList) ("abc".toList) (Or.inl rfl)
    (Or.inr (Or.inr rfl)) (by rfl)
    (by
      intro itag h
      have h2 := Option.some.inj h
      rw [← h2]
      decide)

/-- Witness for claim C10 at a concrete tag-free text with the tolerance
flag enabled. -/
theorem extract_missing_open_tag_tolerant_witness :
    extract { outer_tag := some ("tag".toList), inner_tag := none, next_outer_tag := none,
              fail_if_final_tag := false, fail_if_inner_tag := true,
              fail_if_next_outer_tag := true } ("still no tags anywhere".toList)
      = .error .parsingError :=
  extract_missing_open_tag_tolerant ("tag".toList) ("still no tags anywhere".toList) none none
    true true (by decide) (by decide) (by decide)
